import Mathlib

/-!
A shallow embedding of `parser.go` of the `stateparser` repository: a
backtracking parser-combinator engine.

Modelling conventions, stated once here:

* `interface{}` match values are modelled by the inductive type `Match`;
  the Go `nil` interface value is `Match.null`, a `string` is
  `Match.scalar`, a `[]interface{}` is `Match.seq`, and a `TaggedMatch`
  is `Match.tagged`.
* Go `error` values are modelled by `PError`: `PError.plain msg` is an
  ordinary error (`fmt.Errorf`, `io.EOF`, ...), `PError.fatal e` is the
  `fatalError` wrapper struct.  `Or` and `Mult` test `err.(fatalError)`
  on the top constructor only, exactly as the Go type assertion does.
* The `StateReader` interface is instantiated with the canonical cursor
  over a character stream: a list of characters together with a
  position; `State()` returns the position and `RestoreState` writes it
  back.  `ReadRune` at end of input fails with `io.EOF` (message
  `"EOF"`) and leaves the position unchanged.
* A Go panic (reachable in `Set` when `regexp.Compile` failed and the
  `nil` `*Regexp` is dereferenced) is the third result `RunRes.panic`;
  a panic propagates through every combinator without any restore,
  exactly as an unrecovered Go panic unwinds.
* `regexp.Compile` is Go standard-library code, external to this
  repository; its result is passed to the embedded `Set` abstractly as
  an `Option (Char → Bool)` (`none` = compilation failed, in which case
  the source discards the error and stores a `nil` `*Regexp`).
* Go's `%q` verb (strconv quoting) is likewise external; it is
  abbreviated by `quoteRune`/`quoteStr` covering the characters that
  occur here.  No claim depends on the exact quoted spelling.
* `Resolve` (a transparent indirection through a grammar pointer, used
  for recursive grammars) is not representable in a total embedding and
  adds no behaviour of its own; grammars are the finite trees built
  from the remaining combinators.
-/

namespace StateParser

/-- The match-tree value (`interface{}` results in `parser.go`):
`null` is the Go `nil` interface, `scalar` a `string`, `seq` a
`[]interface{}`, `tagged` a `TaggedMatch`. -/
inductive Match where
  | null : Match
  | scalar (s : String) : Match
  | seq (ms : List Match) : Match
  | tagged (tag : String) (m : Match) : Match

/-- The Go test `m != nil` on a match value. -/
def Match.isNull : Match → Bool
  | .null => true
  | _ => false

/-- Go `error` values as the engine distinguishes them: `plain` is any
ordinary error, `fatal` is the `fatalError` wrapper struct. -/
inductive PError where
  | plain (msg : String) : PError
  | fatal (e : PError) : PError
deriving DecidableEq

/-- The Go type assertion `_, isFE := err.(fatalError)`: looks at the
outermost wrapper only. -/
def PError.isFatal : PError → Bool
  | .fatal _ => true
  | _ => false

/-- `Error()` on the modelled errors; `fatalError.Error` formats
`"Fatal match error: %s"`. -/
def PError.message : PError → String
  | .plain msg => msg
  | .fatal e => "Fatal match error: " ++ e.message

/-- Outcome of invoking a grammar on a reader: a Go `(interface{}, error)`
pair is `ok` (error nil, match possibly nil = `.null`) or `err`;
`panic` models an unrecovered Go runtime panic. -/
inductive RunRes where
  | ok (m : Match) : RunRes
  | err (e : PError) : RunRes
  | panic : RunRes

/-- The canonical `StateReader`: a character stream plus a position.
`State()` returns `pos`; `RestoreState` writes it back. -/
structure Reader where
  input : List Char
  pos : Nat
deriving DecidableEq

/-- `RestoreState` on the canonical reader. -/
def Reader.restoreState (r : Reader) (st : Nat) : Reader :=
  { r with pos := st }

/-- `ReadRune` on the canonical reader: next character or `io.EOF`. -/
def Reader.readRune (r : Reader) : Option Char × Reader :=
  match r.input[r.pos]? with
  | some c => (some c, ⟨r.input, r.pos + 1⟩)
  | none => (none, r)

/-- The `io.EOF` error returned by `ReadRune` at end of input. -/
def eofErr : PError := .plain "EOF"

/-- A single-quote character, used by the rune-quoting helper. -/
def squote : String := String.singleton (Char.ofNat 39)

/-- Abbreviation of Go's `%q` on a rune (strconv quoting, external to
this repository), covering the characters that occur here. -/
def quoteRune (c : Char) : String :=
  squote ++
    (if c = Char.ofNat 10 then "\\n"
     else if c = Char.ofNat 9 then "\\t"
     else if c = Char.ofNat 92 then "\\\\"
     else String.singleton c) ++ squote

/-- Abbreviation of Go's `%q` on a string, applied in `Set` to the
one-character string just read. -/
def quoteStr (s : String) : String :=
  "\"" ++ String.join (s.data.map fun c =>
    if c = Char.ofNat 10 then "\\n"
    else if c = Char.ofNat 9 then "\\t"
    else if c = Char.ofNat 92 then "\\\\"
    else if c = Char.ofNat 34 then "\\\""
    else String.singleton c) ++ "\""

/-- The mismatch error of `Lit`:
`fmt.Errorf("Expected %q, got %q", r, rr)`. -/
def litMsg (expected actual : Char) : String :=
  "Expected " ++ quoteRune expected ++ ", got " ++ quoteRune actual

/-- The mismatch error of `Set`:
`fmt.Errorf("Expected \"%s\", got %q", set, s)`. -/
def setMsg (set : String) (actual : Char) : String :=
  "Expected \"" ++ set ++ "\", got " ++ quoteStr (String.singleton actual)

/-- The exhaustion error of `Or`:
`fmt.Errorf("Or error, expected: (%v)", errs)`; `%v` prints a slice of
errors as `[e1 e2 ...]`. -/
def orMsg (errs : List PError) : String :=
  "Or error, expected: ([" ++ String.intercalate " " (errs.map PError.message) ++ "])"

/-- `var Escaper = strings.NewReplacer("\n", "\\n", "\t", "\\t")`
applied to a string (`Escaper.Replace`). -/
def Escaper (s : String) : String :=
  String.join (s.data.map fun c =>
    if c = Char.ofNat 10 then "\\n"
    else if c = Char.ofNat 9 then "\\t"
    else String.singleton c)

/-- `int(^uint(0) >> 1)`: the Go `math.MaxInt` on a 64-bit platform,
substituted for `m` in `Mult` when `m == 0`. -/
def maxInt : Nat := 2 ^ 63 - 1

/-- Deep embedding of the grammars built from the combinators of
`parser.go`.  A constructor per combinator; `set` carries the abstract
result of the external `regexp.Compile` (see module header) together
with the escaped set string used in its error message; `node` carries
the consumer-supplied transform. -/
inductive Grammar where
  | node (g : Grammar) (f : Match → Except PError Match) : Grammar
  | set (regset : Option (Char → Bool)) (set : String) : Grammar
  | lit (text : String) : Grammar
  | and_ (gs : List Grammar) : Grammar
  | or_ (gs : List Grammar) : Grammar
  | mult (n m : Nat) (g : Grammar) : Grammar
  | ignore (g : Grammar) : Grammar
  | require (gs : List Grammar) : Grammar
  | tag (tag : String) (g : Grammar) : Grammar

/-- `Set(set string)`: escapes the set and pairs it with the abstract
compilation result of `regexp.Compile("[" + set + "]")` (the source
ignores the compilation error; `none` models that failure case). -/
def Set (set : String) (compiled : Option (Char → Bool)) : Grammar :=
  .set compiled (Escaper set)

/-- `Optional(g) = Mult(0, 1, g)`. -/
def Optional (g : Grammar) : Grammar := .mult 0 1 g

/-- The character loop of `Lit`: one `ReadRune` per expected character;
on read failure or mismatch, restore the entry checkpoint `st` and fail;
after the last character succeed with the scalar `text`. -/
def litLoop (text : String) (rs : List Char) (st : Nat) (r : Reader) :
    RunRes × Reader :=
  match rs with
  | [] => (.ok (.scalar text), r)
  | c :: rest =>
    match r.readRune with
    | (none, r1) => (.err eofErr, r1.restoreState st)
    | (some c1, r1) =>
      if c1 = c then litLoop text rest st r1
      else (.err (.plain (litMsg c c1)), r1.restoreState st)

mutual

/-- Invoking a grammar on a reader: the body of each combinator's
closure in `parser.go`, translated case by case (see the loop helpers
for `And`/`Or`/`Mult`). -/
def run : Grammar → Reader → RunRes × Reader
  | .node g f, r =>
    match run g r with
    | (.ok m, r1) =>
      (match f m with
       | .ok m2 => (.ok m2, r1)
       | .error e => (.err e, r1))
    | (.err e, r1) => (.err e, r1)
    | (.panic, r1) => (.panic, r1)
  | .set regset s, r =>
    match r.readRune with
    | (none, r1) => (.err eofErr, r1.restoreState r.pos)
    | (some c, r1) =>
      match regset with
      | none => (.panic, r1)
      | some cls =>
        if cls c then (.ok (.scalar (String.singleton c)), r1)
        else (.err (.plain (setMsg s c)), r1.restoreState r.pos)
  | .lit text, r => litLoop text text.data r.pos r
  | .and_ gs, r => andLoop r.pos gs [] r
  | .or_ gs, r => orLoop r.pos gs [] r
  | .mult n m g, r =>
    multLoop g n (if m = 0 then maxInt else m) r.pos 0 [] r
  | .ignore g, r =>
    match run g r with
    | (.ok _, r1) => (.ok .null, r1)
    | (.err e, r1) => (.err e, r1)
    | (.panic, r1) => (.panic, r1)
  | .require gs, r =>
    match andLoop r.pos gs [] r with
    | (.ok m, r1) => (.ok m, r1)
    | (.err e, r1) => (.err (.fatal e), r1)
    | (.panic, r1) => (.panic, r1)
  | .tag t g, r =>
    match run g r with
    | (.ok m, r1) => (.ok (.tagged t m), r1)
    | (.err e, r1) => (.err e, r1)
    | (.panic, r1) => (.panic, r1)
termination_by g _ => (sizeOf g, 0)

/-- The loop of `And`: run the grammars in order, appending each
non-nil match; on any error restore the entry checkpoint `st` and
return the same error. -/
def andLoop (st : Nat) (gs : List Grammar) (acc : List Match) (r : Reader) :
    RunRes × Reader :=
  match gs with
  | [] => (.ok (.seq acc), r)
  | g :: rest =>
    match run g r with
    | (.ok m, r1) =>
      andLoop st rest (if m.isNull then acc else acc ++ [m]) r1
    | (.err e, r1) => (.err e, r1.restoreState st)
    | (.panic, r1) => (.panic, r1)
termination_by (sizeOf gs, 0)

/-- The loop of `Or`: try the alternatives in order from the entry
checkpoint `st`; return the first success as-is; return a fatal error
immediately without restoring; on a recoverable error append it and
restore before trying the next alternative; when exhausted fail with
the composite message. -/
def orLoop (st : Nat) (gs : List Grammar) (errs : List PError) (r : Reader) :
    RunRes × Reader :=
  match gs with
  | [] => (.err (.plain (orMsg errs)), r)
  | g :: rest =>
    match run g r with
    | (.ok m, r1) => (.ok m, r1)
    | (.err e, r1) =>
      if e.isFatal then (.err e, r1)
      else orLoop st rest (errs ++ [e]) (r1.restoreState st)
    | (.panic, r1) => (.panic, r1)
termination_by (sizeOf gs, 0)

/-- The loop of `Mult`: at most `cap` applications of `g` (index `i`);
a fatal error propagates without restoring; a recoverable error before
`n` successes restores the entry checkpoint `st` and fails; from the
`n`-th success on it ends the repetition with the accumulated matches
(every match is appended, nil or not, as in the source). -/
def multLoop (g : Grammar) (n cap : Nat) (st : Nat) (i : Nat)
    (acc : List Match) (r : Reader) : RunRes × Reader :=
  if _h : i < cap then
    match run g r with
    | (.ok m, r1) => multLoop g n cap st (i + 1) (acc ++ [m]) r1
    | (.err e, r1) =>
      if e.isFatal then (.err e, r1)
      else if i < n then (.err e, r1.restoreState st)
      else (.ok (.seq acc), r1)
    | (.panic, r1) => (.panic, r1)
  else (.ok (.seq acc), r)
termination_by (sizeOf g, cap - i)

end

/-- `String(m)` of `parser.go` (named `StringM` because `String` is the
Lean string type): a `[]interface{}` is flattened elementwise and the
pieces joined with `""`, a `string` is returned as-is, everything else
(nil and `TaggedMatch` included) falls through to `""`.  The slice case
`strings.Join([String(m_1), ...], "")` is rendered as the equivalent
head/tail concatenation. -/
def StringM : Match → String
  | .scalar s => s
  | .seq [] => ""
  | .seq (m :: ms) => StringM m ++ StringM (.seq ms)
  | _ => ""
termination_by m => sizeOf m

/-- `GetTag(m, tag)`: on a `[]interface{}` return the first elementwise
result that is non-nil; on a `TaggedMatch` return its `Match` when the
tag matches, otherwise search inside it; anything else is not found
(`nil` = `.null`). -/
def GetTag : Match → String → Match
  | .seq [], _ => .null
  | .seq (mi :: rest), tag =>
    match GetTag mi tag with
    | .null => GetTag (.seq rest) tag
    | tm => tm
  | .tagged t m, tag => if tag = t then m else GetTag m tag
  | _, _ => .null
termination_by m _ => sizeOf m

/-- Modelled from the spec: the depth-first preorder list of the
`TaggedMatch` wrappers of a match tree, each as its label paired with
its child — the reference against which `GetTag`'s search order is
checked. -/
def taggedPre : Match → List (String × Match)
  | .seq [] => []
  | .seq (m :: ms) => taggedPre m ++ taggedPre (.seq ms)
  | .tagged t m => (t, m) :: taggedPre m
  | _ => []
termination_by m => sizeOf m

/-- Modelled from the spec (FindTag): the child of the first Tagged
sub-match in depth-first preorder whose label equals `tag` — restricted
to those with a non-nil child, which is what the source computes. -/
def findTagSpec (m : Match) (tag : String) : Match :=
  match (taggedPre m).filter (fun p => p.1 == tag && !p.2.isNull) with
  | [] => .null
  | p :: _ => p.2

/-- Modelled from the spec (Flatten): concatenates every `Scalar` value
reachable from the match, recursing into Tagged wrappers as well — the
reading of the spec sentence that `StringM` is checked against. -/
def flattenSpec : Match → String
  | .scalar s => s
  | .seq [] => ""
  | .seq (m :: ms) => flattenSpec m ++ flattenSpec (.seq ms)
  | .tagged _ m => flattenSpec m
  | .null => ""
termination_by m => sizeOf m

/-- The grammars whose `Node` transforms never fail with an ordinary
(recoverable) error: any failure a transform produces is the `fatalError`
wrapper.  Grammars containing no `node` at all satisfy this trivially. -/
inductive GoodNodes : Grammar → Prop where
  | node {g f} : (∀ m e, f m = .error e → e.isFatal = true) → GoodNodes g →
      GoodNodes (.node g f)
  | set {rs s} : GoodNodes (.set rs s)
  | lit {t} : GoodNodes (.lit t)
  | and_ {gs} : (∀ g ∈ gs, GoodNodes g) → GoodNodes (.and_ gs)
  | or_ {gs} : (∀ g ∈ gs, GoodNodes g) → GoodNodes (.or_ gs)
  | mult {n m g} : GoodNodes g → GoodNodes (.mult n m g)
  | ignore {g} : GoodNodes g → GoodNodes (.ignore g)
  | require {gs} : (∀ g ∈ gs, GoodNodes g) → GoodNodes (.require gs)
  | tag {t g} : GoodNodes g → GoodNodes (.tag t g)

/-- The grammars built without `Tag`, `Node` and `Ignore`: those whose
successful matches carry exactly the consumed text. -/
inductive PlainG : Grammar → Prop where
  | set {rs s} : PlainG (.set rs s)
  | lit {t} : PlainG (.lit t)
  | and_ {gs} : (∀ g ∈ gs, PlainG g) → PlainG (.and_ gs)
  | or_ {gs} : (∀ g ∈ gs, PlainG g) → PlainG (.or_ gs)
  | mult {n m g} : PlainG g → PlainG (.mult n m g)
  | require {gs} : (∀ g ∈ gs, PlainG g) → PlainG (.require gs)

/-- A run of a list of grammars in sequence, each succeeding, threading
the reader: the successful prefix of an `And` (and, via
`List.replicate`, a row of successful applications in `Mult`). -/
inductive SeqOk : List Grammar → Reader → Reader → Prop where
  | nil {r} : SeqOk [] r r
  | cons {g gs r r1 r2 m} : run g r = (.ok m, r1) → SeqOk gs r1 r2 →
      SeqOk (g :: gs) r r2

/-- A row of alternatives each failing recoverably from the same
reader, collecting their errors in order: the exhausted prefix of an
`Or`. -/
inductive OrFails : List Grammar → Reader → List PError → Prop where
  | nil {r} : OrFails [] r []
  | cons {g gs r r1 e es} : run g r = (.err e, r1) → e.isFatal = false →
      OrFails gs r es → OrFails (g :: gs) r (e :: es)

/-- `k` successful applications of `g` from `r`, accumulating the
matches, followed by one application that fails recoverably and leaves
the reader where it started (as every checkpoint-respecting grammar
does): the shape of a terminating `Mult` run. -/
inductive RepRun : Grammar → Reader → Nat → List Match → Reader → PError → Prop where
  | done {g r e} : run g r = (.err e, r) → e.isFatal = false →
      RepRun g r 0 [] r e
  | step {g r m r1 k ms r2 e} : run g r = (.ok m, r1) →
      RepRun g r1 k ms r2 e → RepRun g r (k + 1) (m :: ms) r2 e

/-! Basic facts about the canonical reader. -/

theorem readRune_input (r : Reader) : r.readRune.2.input = r.input := by
  unfold Reader.readRune
  cases r.input[r.pos]? <;> simp

theorem readRune_some {r : Reader} {c : Char} {l : List Char}
    (h : r.input.drop r.pos = c :: l) :
    r.readRune = (some c, ⟨r.input, r.pos + 1⟩) := by
  have hg : r.input[r.pos]? = some c := by
    rw [← List.head?_drop, h, List.head?_cons]
  unfold Reader.readRune
  rw [hg]

theorem readRune_none {r : Reader} (h : r.input.drop r.pos = []) :
    r.readRune = (none, r) := by
  have hg : r.input[r.pos]? = none := by
    rw [← List.head?_drop, h, List.head?_nil]
  unfold Reader.readRune
  rw [hg]

theorem drop_succ_of_drop {l : List Char} {p : Nat} {c : Char} {t : List Char}
    (h : l.drop p = c :: t) : l.drop (p + 1) = t := by
  rw [← List.drop_drop, h, List.drop_one, List.tail_cons]

/-! Facts about the character loop of `Lit`. -/

theorem litLoop_input (text : String) : ∀ (rs : List Char) (st : Nat) (r : Reader),
    (litLoop text rs st r).2.input = r.input := by
  intro rs
  induction rs with
  | nil => intro st r; simp [litLoop]
  | cons c rest ih =>
    intro st r
    have hr := readRune_input r
    rcases h : r.readRune with ⟨oc, r1⟩
    rw [h] at hr
    have hr1 : r1.input = r.input := hr
    cases oc with
    | none => simp [litLoop, h, Reader.restoreState, hr1]
    | some c1 =>
      by_cases hc : c1 = c
      · subst hc
        simp only [litLoop, h]
        rw [if_true, ih st r1, hr1]
      · simp [litLoop, h, hc, Reader.restoreState, hr1]

theorem litLoop_err_pos (text : String) : ∀ (rs : List Char) (st : Nat) (r : Reader)
    (e : PError) (r1 : Reader), litLoop text rs st r = (.err e, r1) → r1.pos = st := by
  intro rs
  induction rs with
  | nil => intro st r e r1 h; simp [litLoop] at h
  | cons c rest ih =>
    intro st r e r1 h
    rcases hrr : r.readRune with ⟨oc, rA⟩
    cases oc with
    | none =>
      simp only [litLoop, hrr, Prod.mk.injEq, RunRes.err.injEq] at h
      rw [← h.2]
      rfl
    | some c1 =>
      by_cases hc : c1 = c
      · subst hc
        simp only [litLoop, hrr] at h
        rw [if_true] at h
        exact ih st rA e r1 h
      · simp only [litLoop, hrr, if_neg hc, Prod.mk.injEq, RunRes.err.injEq] at h
        rw [← h.2]
        rfl

/-! Input preservation: the engine moves the position only; the
character stream of the reader is never changed. -/

theorem readRune_pair_input {r : Reader} {oc : Option Char} {r1 : Reader}
    (h : r.readRune = (oc, r1)) : r1.input = r.input := by
  have hi := readRune_input r
  rw [h] at hi
  exact hi

theorem run_input (g0 : Grammar) (r0 : Reader) :
    (run g0 r0).2.input = r0.input := by
  apply run.induct
    (fun g r => (run g r).2.input = r.input)
    (fun g n cap st i acc r => (multLoop g n cap st i acc r).2.input = r.input)
    (fun st gs errs r => (orLoop st gs errs r).2.input = r.input)
    (fun st gs acc r => (andLoop st gs acc r).2.input = r.input)
  -- node: child ok, transform ok
  next =>
    intro g f r m r1 hg m2 hf ih
    simp only [run, hg, hf]; rw [hg] at ih; exact ih
  -- node: child ok, transform error
  next =>
    intro g f r m r1 hg e hf ih
    simp only [run, hg, hf]; rw [hg] at ih; exact ih
  -- node: child err
  next =>
    intro g f r e r1 hg ih
    simp only [run, hg]; rw [hg] at ih; exact ih
  -- node: child panic
  next =>
    intro g f r r1 hg ih
    simp only [run, hg]; rw [hg] at ih; exact ih
  -- set: read failure
  next =>
    intro regset s r r1 hr
    simp only [run, hr]
    have hi := readRune_pair_input hr
    exact hi
  -- set: nil regexp, panic
  next =>
    intro s r c1 r1 hr
    simp only [run, hr]; exact readRune_pair_input hr
  -- set: class hit
  next =>
    intro s r c1 r1 hr cls hcls
    simp only [run, hr, hcls, if_true]; exact readRune_pair_input hr
  -- set: class miss
  next =>
    intro s r c1 r1 hr cls hcls
    simp only [run, hr, if_neg hcls]
    have hi := readRune_pair_input hr
    exact hi
  -- lit
  next =>
    intro text r
    simp only [run]; exact litLoop_input text text.data r.pos r
  -- and_
  next =>
    intro gs r ih
    simp only [run]; exact ih
  -- or_
  next =>
    intro gs r ih
    simp only [run]; exact ih
  -- mult
  next =>
    intro n m g r ih
    simp only [run]; exact ih
  -- ignore: ok / err / panic
  next =>
    intro g r m r1 hg ih
    simp only [run, hg]; rw [hg] at ih; exact ih
  next =>
    intro g r e r1 hg ih
    simp only [run, hg]; rw [hg] at ih; exact ih
  next =>
    intro g r r1 hg ih
    simp only [run, hg]; rw [hg] at ih; exact ih
  -- require: ok / err / panic
  next =>
    intro gs r m r1 ha ih
    simp only [run, ha]; rw [ha] at ih; exact ih
  next =>
    intro gs r e r1 ha ih
    simp only [run, ha]; rw [ha] at ih; exact ih
  next =>
    intro gs r r1 ha ih
    simp only [run, ha]; rw [ha] at ih; exact ih
  -- tag: ok / err / panic
  next =>
    intro t g r m r1 hg ih
    simp only [run, hg]; rw [hg] at ih; exact ih
  next =>
    intro t g r e r1 hg ih
    simp only [run, hg]; rw [hg] at ih; exact ih
  next =>
    intro t g r r1 hg ih
    simp only [run, hg]; rw [hg] at ih; exact ih
  -- multLoop: child ok
  next =>
    intro g n cap st i acc r hlt m r1 hg ih2 ih1
    rw [multLoop.eq_def, dif_pos hlt]
    simp only [hg]
    rw [hg] at ih2; exact ih1.trans ih2
  -- multLoop: child fatal err
  next =>
    intro g n cap st i acc r hlt e r1 hg hfat ih
    rw [multLoop.eq_def, dif_pos hlt]
    simp only [hg, hfat, if_true]
    rw [hg] at ih; exact ih
  -- multLoop: child recoverable err, below min
  next =>
    intro g n cap st i acc r hlt e r1 hg hfat hin ih
    rw [multLoop.eq_def, dif_pos hlt]
    simp only [hg, if_neg hfat, if_pos hin]
    rw [hg] at ih; exact ih
  -- multLoop: child recoverable err, at or past min
  next =>
    intro g n cap st i acc r hlt e r1 hg hfat hin ih
    rw [multLoop.eq_def, dif_pos hlt]
    simp only [hg, if_neg hfat, if_neg hin]
    rw [hg] at ih; exact ih
  -- multLoop: child panic
  next =>
    intro g n cap st i acc r hlt r1 hg ih
    rw [multLoop.eq_def, dif_pos hlt]
    simp only [hg]
    rw [hg] at ih; exact ih
  -- multLoop: cap reached
  next =>
    intro g n cap st i acc r hlt
    rw [multLoop.eq_def, dif_neg hlt]
  -- orLoop: exhausted
  next =>
    intro st errs r
    simp only [orLoop]
  -- orLoop: child ok
  next =>
    intro st errs r g rest m r1 hg ih
    simp only [orLoop, hg]; rw [hg] at ih; exact ih
  -- orLoop: child fatal
  next =>
    intro st errs r g rest e r1 hg hfat ih
    simp only [orLoop, hg, hfat, if_true]; rw [hg] at ih; exact ih
  -- orLoop: child recoverable
  next =>
    intro st errs r g rest e r1 hg hfat ih2 ih1
    simp only [orLoop, hg, if_neg hfat]
    rw [hg] at ih2
    refine ih1.trans ?_
    simpa [Reader.restoreState] using ih2
  -- orLoop: child panic
  next =>
    intro st errs r g rest r1 hg ih
    simp only [orLoop, hg]; rw [hg] at ih; exact ih
  -- andLoop: exhausted
  next =>
    intro st acc r
    simp only [andLoop]
  -- andLoop: child ok
  next =>
    intro st acc r g rest m r1 hg ih2 ih1
    simp only [andLoop, hg]
    rw [hg] at ih2; exact ih1.trans ih2
  -- andLoop: child err
  next =>
    intro st acc r g rest e r1 hg ih
    simp only [andLoop, hg]; rw [hg] at ih; exact ih
  -- andLoop: child panic
  next =>
    intro st acc r g rest r1 hg ih
    simp only [andLoop, hg]; rw [hg] at ih; exact ih

theorem recoverRestores (g0 : Grammar) (r0 : Reader) :
    GoodNodes g0 → ∀ e0 r1, run g0 r0 = (.err e0, r1) → e0.isFatal = false →
      r1.pos = r0.pos := by
  apply run.induct
    (fun g r => GoodNodes g → ∀ e0 r1, run g r = (.err e0, r1) →
      e0.isFatal = false → r1.pos = r.pos)
    (fun g n cap st i acc r => ∀ e0 r1,
      multLoop g n cap st i acc r = (.err e0, r1) → e0.isFatal = false →
      r1.pos = st)
    (fun st gs errs r => r.pos = st → ∀ e0 r1,
      orLoop st gs errs r = (.err e0, r1) → e0.isFatal = false → r1.pos = st)
    (fun st gs acc r => ∀ e0 r1,
      andLoop st gs acc r = (.err e0, r1) → r1.pos = st)
  -- node: child ok, transform ok
  next =>
    intro g f r m r1 hg m2 hf ih hGood e0 r2 hrun hfat
    simp [run, hg, hf] at hrun
  -- node: child ok, transform error
  next =>
    intro g f r m r1 hg e hf ih hGood e0 r2 hrun hfat
    cases hGood with
    | node hF hGg =>
      simp only [run, hg, hf, Prod.mk.injEq, RunRes.err.injEq] at hrun
      rw [← hrun.1] at hfat
      rw [hF m e hf] at hfat
      cases hfat
  -- node: child err
  next =>
    intro g f r e r1 hg ih hGood e0 r2 hrun hfat
    cases hGood with
    | node hF hGg =>
      simp only [run, hg, Prod.mk.injEq, RunRes.err.injEq] at hrun
      rw [← hrun.1] at hfat
      rw [← hrun.2]
      exact ih hGg e r1 hg hfat
  -- node: child panic
  next =>
    intro g f r r1 hg ih hGood e0 r2 hrun hfat
    simp [run, hg] at hrun
  -- set: read failure
  next =>
    intro regset s r r1 hr hGood e0 r2 hrun hfat
    simp only [run, hr, Prod.mk.injEq, RunRes.err.injEq] at hrun
    rw [← hrun.2]
    rfl
  -- set: nil regexp, panic
  next =>
    intro s r c1 r1 hr hGood e0 r2 hrun hfat
    simp [run, hr] at hrun
  -- set: class hit
  next =>
    intro s r c1 r1 hr cls hcls hGood e0 r2 hrun hfat
    simp [run, hr, hcls, if_true] at hrun
  -- set: class miss
  next =>
    intro s r c1 r1 hr cls hcls hGood e0 r2 hrun hfat
    simp only [run, hr, if_neg hcls, Prod.mk.injEq, RunRes.err.injEq] at hrun
    rw [← hrun.2]
    rfl
  -- lit
  next =>
    intro text r hGood e0 r2 hrun hfat
    simp only [run] at hrun
    exact litLoop_err_pos text text.data r.pos r e0 r2 hrun
  -- and_
  next =>
    intro gs r ih hGood e0 r2 hrun hfat
    simp only [run] at hrun
    exact ih e0 r2 hrun
  -- or_
  next =>
    intro gs r ih hGood e0 r2 hrun hfat
    simp only [run] at hrun
    exact ih rfl e0 r2 hrun hfat
  -- mult
  next =>
    intro n m g r ih hGood e0 r2 hrun hfat
    simp only [run] at hrun
    exact ih e0 r2 hrun hfat
  -- ignore: ok / err / panic
  next =>
    intro g r m r1 hg ih hGood e0 r2 hrun hfat
    simp [run, hg] at hrun
  next =>
    intro g r e r1 hg ih hGood e0 r2 hrun hfat
    cases hGood with
    | ignore hGg =>
      simp only [run, hg, Prod.mk.injEq, RunRes.err.injEq] at hrun
      rw [← hrun.1] at hfat
      rw [← hrun.2]
      exact ih hGg e r1 hg hfat
  next =>
    intro g r r1 hg ih hGood e0 r2 hrun hfat
    simp [run, hg] at hrun
  -- require: ok / err / panic
  next =>
    intro gs r m r1 ha ih hGood e0 r2 hrun hfat
    simp [run, ha] at hrun
  next =>
    intro gs r e r1 ha ih hGood e0 r2 hrun hfat
    simp only [run, ha, Prod.mk.injEq, RunRes.err.injEq] at hrun
    rw [← hrun.1] at hfat
    cases hfat
  next =>
    intro gs r r1 ha ih hGood e0 r2 hrun hfat
    simp [run, ha] at hrun
  -- tag: ok / err / panic
  next =>
    intro t g r m r1 hg ih hGood e0 r2 hrun hfat
    simp [run, hg] at hrun
  next =>
    intro t g r e r1 hg ih hGood e0 r2 hrun hfat
    cases hGood with
    | tag hGg =>
      simp only [run, hg, Prod.mk.injEq, RunRes.err.injEq] at hrun
      rw [← hrun.1] at hfat
      rw [← hrun.2]
      exact ih hGg e r1 hg hfat
  next =>
    intro t g r r1 hg ih hGood e0 r2 hrun hfat
    simp [run, hg] at hrun
  -- multLoop: child ok
  next =>
    intro g n cap st i acc r hlt m r1 hg ih2 ih1 e0 r2 hrun hfat
    rw [multLoop.eq_def, dif_pos hlt] at hrun
    simp only [hg] at hrun
    exact ih1 e0 r2 hrun hfat
  -- multLoop: child fatal err
  next =>
    intro g n cap st i acc r hlt e r1 hg hfe ih e0 r2 hrun hfat
    rw [multLoop.eq_def, dif_pos hlt] at hrun
    simp only [hg, hfe, if_true, Prod.mk.injEq, RunRes.err.injEq] at hrun
    rw [← hrun.1] at hfat
    rw [hfe] at hfat
    cases hfat
  -- multLoop: child recoverable err, below min
  next =>
    intro g n cap st i acc r hlt e r1 hg hfe hin ih e0 r2 hrun hfat
    rw [multLoop.eq_def, dif_pos hlt] at hrun
    simp only [hg, if_neg hfe, if_pos hin, Prod.mk.injEq, RunRes.err.injEq] at hrun
    rw [← hrun.2]
    rfl
  -- multLoop: child recoverable err, at or past min
  next =>
    intro g n cap st i acc r hlt e r1 hg hfe hin ih e0 r2 hrun hfat
    rw [multLoop.eq_def, dif_pos hlt] at hrun
    simp [hg, if_neg hfe, if_neg hin] at hrun
  -- multLoop: child panic
  next =>
    intro g n cap st i acc r hlt r1 hg ih e0 r2 hrun hfat
    rw [multLoop.eq_def, dif_pos hlt] at hrun
    simp [hg] at hrun
  -- multLoop: cap reached
  next =>
    intro g n cap st i acc r hlt e0 r2 hrun hfat
    rw [multLoop.eq_def, dif_neg hlt] at hrun
    simp at hrun
  -- orLoop: exhausted
  next =>
    intro st errs r hpos e0 r2 hrun hfat
    simp only [orLoop, Prod.mk.injEq, RunRes.err.injEq] at hrun
    rw [← hrun.2, hpos]
  -- orLoop: child ok
  next =>
    intro st errs r g rest m r1 hg ih hpos e0 r2 hrun hfat
    simp [orLoop, hg] at hrun
  -- orLoop: child fatal
  next =>
    intro st errs r g rest e r1 hg hfe ih hpos e0 r2 hrun hfat
    simp only [orLoop, hg, hfe, if_true, Prod.mk.injEq, RunRes.err.injEq] at hrun
    rw [← hrun.1] at hfat
    rw [hfe] at hfat
    cases hfat
  -- orLoop: child recoverable
  next =>
    intro st errs r g rest e r1 hg hfe ih2 ih1 hpos e0 r2 hrun hfat
    simp only [orLoop, hg, if_neg hfe] at hrun
    exact ih1 rfl e0 r2 hrun hfat
  -- orLoop: child panic
  next =>
    intro st errs r g rest r1 hg ih hpos e0 r2 hrun hfat
    simp [orLoop, hg] at hrun
  -- andLoop: exhausted
  next =>
    intro st acc r e0 r2 hrun
    simp [andLoop] at hrun
  -- andLoop: child ok
  next =>
    intro st acc r g rest m r1 hg ih2 ih1 e0 r2 hrun
    simp only [andLoop, hg] at hrun
    exact ih1 e0 r2 hrun
  -- andLoop: child err
  next =>
    intro st acc r g rest e r1 hg ih e0 r2 hrun
    simp only [andLoop, hg, Prod.mk.injEq, RunRes.err.injEq] at hrun
    rw [← hrun.2]
    rfl
  -- andLoop: child panic
  next =>
    intro st acc r g rest r1 hg ih e0 r2 hrun
    simp [andLoop, hg] at hrun


/-! Facts about rows of runs, feeding the `And`, `Or` and `Mult`
theorems. -/

theorem seqOk_input {gs : List Grammar} {r r1 : Reader}
    (h : SeqOk gs r r1) : r1.input = r.input := by
  induction h with
  | nil => rfl
  | @cons g gs rA rB r2 m hg _ ih =>
    have hi := run_input g rA
    rw [hg] at hi
    exact ih.trans hi

theorem reader_eta (r : Reader) : (⟨r.input, r.pos⟩ : Reader) = r := rfl

theorem andLoop_seqOk {pre : List Grammar} {r r1 : Reader}
    (h : SeqOk pre r r1) :
    ∀ (rest : List Grammar) (st : Nat) (acc : List Match), ∃ acc2,
      andLoop st (pre ++ rest) acc r = andLoop st rest acc2 r1 := by
  induction h with
  | nil => intro rest st acc; exact ⟨acc, rfl⟩
  | @cons g gs rA rB r2 m hg _ ih =>
    intro rest st acc
    obtain ⟨acc2, hacc⟩ := ih rest st (if m.isNull then acc else acc ++ [m])
    refine ⟨acc2, ?_⟩
    rw [← hacc]
    simp only [List.cons_append, andLoop, hg]

theorem orLoop_orFails {pre : List Grammar} {r : Reader} {es : List PError}
    (h : OrFails pre r es) :
    ∀ (rest : List Grammar) (errs : List PError),
      orLoop r.pos (pre ++ rest) errs r = orLoop r.pos rest (errs ++ es) r := by
  induction h with
  | nil => intro rest errs; simp
  | @cons g gs rA rB e es2 hg hfe _ ih =>
    intro rest errs
    have hres : rB.restoreState rA.pos = rA := by
      have hi := run_input g rA
      rw [hg] at hi
      show (⟨rB.input, rA.pos⟩ : Reader) = rA
      rw [hi]
    simp only [List.cons_append, orLoop, hg, hfe]
    rw [if_neg Bool.false_ne_true, hres, ih rest (errs ++ [e]), List.append_assoc]
    rfl

theorem repRun_input {g : Grammar} {r : Reader} {k : Nat} {ms : List Match}
    {r2 : Reader} {e : PError} (h : RepRun g r k ms r2 e) :
    r2.input = r.input := by
  induction h with
  | done hg hfe => rfl
  | @step rA m r1 kA msA r2A eA hg _ ih =>
    have hi := run_input g rA
    rw [hg] at hi
    exact ih.trans hi

theorem multLoop_repRun {g : Grammar} {n cap : Nat} {r : Reader} {k : Nat}
    {ms : List Match} {r2 : Reader} {e : PError}
    (h : RepRun g r k ms r2 e) :
    ∀ (i : Nat) (acc : List Match) (st : Nat), i + k < cap →
      ((n ≤ i + k → multLoop g n cap st i acc r = (.ok (.seq (acc ++ ms)), r2)) ∧
       (i + k < n → multLoop g n cap st i acc r = (.err e, r2.restoreState st))) := by
  induction h with
  | @done rA eA hg hfe =>
    intro i acc st hcap
    rw [Nat.add_zero] at hcap
    constructor
    · intro hn
      rw [multLoop.eq_def, dif_pos hcap]
      simp only [hg, hfe]
      rw [if_neg Bool.false_ne_true, if_neg (by omega)]
      simp
    · intro hn
      rw [multLoop.eq_def, dif_pos hcap]
      simp only [hg, hfe]
      rw [if_neg Bool.false_ne_true, if_pos (by omega)]
  | @step rA m r1 kA msA r2A eA hg _ ih =>
    intro i acc st hcap
    obtain ⟨ihA, ihB⟩ := ih (i + 1) (acc ++ [m]) st (by omega)
    constructor
    · intro hn
      rw [multLoop.eq_def, dif_pos (by omega)]
      simp only [hg]
      rw [List.append_assoc] at ihA
      simpa using ihA (by omega)
    · intro hn
      rw [multLoop.eq_def, dif_pos (by omega)]
      simp only [hg]
      exact ihB (by omega)

theorem multLoop_fatal {g : Grammar} {e : PError} {r1 r2 : Reader}
    (hg : run g r1 = (.err e, r2)) (hfe : e.isFatal = true) :
    ∀ (k : Nat) (r : Reader), SeqOk (List.replicate k g) r r1 →
    ∀ (n cap i : Nat) (acc : List Match) (st : Nat), i + k < cap →
      multLoop g n cap st i acc r = (.err e, r2) := by
  intro k
  induction k with
  | zero =>
    intro r h n cap i acc st hcap
    cases h
    rw [multLoop.eq_def, dif_pos (by omega)]
    simp only [hg, hfe]
    rw [if_true]
  | succ kk ih =>
    intro r h n cap i acc st hcap
    rw [List.replicate_succ] at h
    cases h with
    | cons hgr hrest =>
      rw [multLoop.eq_def, dif_pos (by omega)]
      simp only [hgr]
      exact ih _ hrest n cap (i + 1) _ st (by omega)

/-! `And` accumulates only non-nil matches. -/

theorem andLoop_ok_noNull : ∀ (gs : List Grammar) (st : Nat) (acc : List Match)
    (r : Reader) (mm : Match) (r1 : Reader),
    (∀ x ∈ acc, x.isNull = false) → andLoop st gs acc r = (.ok mm, r1) →
    ∃ ms, mm = .seq ms ∧ ∀ x ∈ ms, x.isNull = false := by
  intro gs
  induction gs with
  | nil =>
    intro st acc r mm r1 hacc h
    simp only [andLoop, Prod.mk.injEq, RunRes.ok.injEq] at h
    exact ⟨acc, h.1.symm, hacc⟩
  | cons g rest ih =>
    intro st acc r mm r1 hacc h
    rcases hg : run g r with ⟨res, rA⟩
    cases res with
    | ok m =>
      simp only [andLoop, hg] at h
      refine ih st _ rA mm r1 ?_ h
      intro x hx
      by_cases hm : m.isNull
      · rw [if_pos hm] at hx
        exact hacc x hx
      · rw [if_neg hm] at hx
        rcases List.mem_append.1 hx with hxa | hxm
        · exact hacc x hxa
        · rw [List.mem_singleton.1 hxm]
          exact Bool.of_not_eq_true hm
    | err e => simp [andLoop, hg] at h
    | panic => simp [andLoop, hg] at h

/-! The depth-first search of `GetTag` against its specification order. -/

/-- Heads the first entry of a tagged-wrapper list whose label matches
and whose child is non-nil. -/
def pickTag (tag : String) (ps : List (String × Match)) : Match :=
  match ps.filter (fun p => p.1 == tag && !p.2.isNull) with
  | [] => .null
  | p :: _ => p.2

theorem findTagSpec_eq_pickTag (m : Match) (tag : String) :
    findTagSpec m tag = pickTag tag (taggedPre m) := rfl

theorem pickTag_append (tag : String) (xs ys : List (String × Match)) :
    pickTag tag (xs ++ ys) =
      (match pickTag tag xs with
       | .null => pickTag tag ys
       | v => v) := by
  unfold pickTag
  rw [List.filter_append]
  rcases hf : xs.filter (fun p => p.1 == tag && !p.2.isNull) with _ | ⟨p, ps⟩
  · rw [hf, List.nil_append]
  · rw [hf, List.cons_append]
    have hp : p ∈ xs.filter (fun p => p.1 == tag && !p.2.isNull) := by
      rw [hf]
      exact List.mem_cons_self p ps
    have hpred := List.of_mem_filter hp
    have hnn : p.2.isNull = false := by
      simp only [Bool.and_eq_true, Bool.not_eq_true'] at hpred
      exact hpred.2
    show p.2 = (match p.2 with
      | .null => pickTag tag ys
      | v => v)
    cases hv : p.2 with
    | null => rw [hv] at hnn; cases hnn
    | scalar s => rfl
    | seq ms => rfl
    | tagged t mc => rfl

theorem getTag_eq_findTagSpec (m0 : Match) (tag0 : String) :
    GetTag m0 tag0 = findTagSpec m0 tag0 := by
  apply GetTag.induct (fun m tag => GetTag m tag = findTagSpec m tag)
  -- empty sequence
  · intro tg
    simp only [GetTag, findTagSpec_eq_pickTag, taggedPre]
    rfl
  -- sequence head found nothing (nil): continue with the tail
  · intro mi rest tag hnull ih1 ih2
    simp only [GetTag, hnull, findTagSpec_eq_pickTag, taggedPre, pickTag_append]
    rw [← findTagSpec_eq_pickTag mi tag, ← ih1, hnull]
    exact ih2
  -- sequence head found something non-nil: return it
  · intro mi rest tag hne ih1
    simp only [GetTag, findTagSpec_eq_pickTag, taggedPre, pickTag_append]
    rw [← findTagSpec_eq_pickTag mi tag, ← ih1]
    cases hv : GetTag mi tag with
    | null => exact absurd hv hne
    | scalar s => rfl
    | seq ms => rfl
    | tagged t2 m2 => rfl
  -- matching tagged wrapper: return the child
  · intro m tag
    simp only [GetTag, if_pos rfl, findTagSpec_eq_pickTag, taggedPre]
    cases m with
    | null => simp [pickTag, taggedPre, Match.isNull]
    | scalar s => simp [pickTag, Match.isNull]
    | seq ms => simp [pickTag, Match.isNull]
    | tagged t2 m2 => simp [pickTag, Match.isNull]
  -- non-matching tagged wrapper: search inside
  · intro t m tag hne ih
    simp only [GetTag, if_neg hne, findTagSpec_eq_pickTag, taggedPre]
    unfold pickTag
    rw [List.filter_cons]
    have hb : (t == tag) = false := by
      rw [beq_eq_false_iff_ne]
      exact fun hc => hne hc.symm
    simp only [hb, Bool.false_and, if_neg Bool.false_ne_true]
    exact ih
  -- scalars and nil carry no tags
  · intro x tg h1 h2 h3
    cases x with
    | null => simp only [GetTag, findTagSpec_eq_pickTag, taggedPre]; rfl
    | scalar s => simp only [GetTag, findTagSpec_eq_pickTag, taggedPre]; rfl
    | seq ms =>
      cases ms with
      | nil => exact absurd rfl h1
      | cons a b => exact absurd rfl (h2 a b)
    | tagged t m => exact absurd rfl (h3 t m)

/-! Helpers for the Flatten round-trip. -/

theorem plainG_goodNodes {g : Grammar} (h : PlainG g) : GoodNodes g := by
  induction h with
  | set => exact GoodNodes.set
  | lit => exact GoodNodes.lit
  | and_ hall ih => exact GoodNodes.and_ ih
  | or_ hall ih => exact GoodNodes.or_ ih
  | mult hh ih => exact GoodNodes.mult ih
  | require hall ih => exact GoodNodes.require ih

theorem StringM_seq_cons (m : Match) (ms : List Match) :
    StringM (.seq (m :: ms)) = StringM m ++ StringM (.seq ms) := by
  simp only [StringM]

theorem StringM_seq_append (a b : List Match) :
    StringM (.seq (a ++ b)) = StringM (.seq a) ++ StringM (.seq b) := by
  induction a with
  | nil =>
    simp only [List.nil_append]
    have h0 : StringM (.seq []) = "" := by simp only [StringM]
    rw [h0]
    simp
  | cons x xs ih =>
    rw [List.cons_append, StringM_seq_cons, StringM_seq_cons, ih,
      String.append_assoc]

theorem consumed_trans (l : List Char) (p q s : Nat) (h1 : p ≤ q) (h2 : q ≤ s) :
    (l.drop p).take (s - p) =
      (l.drop p).take (q - p) ++ (l.drop q).take (s - q) := by
  have hsum : s - p = (q - p) + (s - q) := by omega
  rw [hsum, List.take_add, List.drop_drop]
  have hq : p + (q - p) = q := by omega
  rw [hq]

theorem readRune_some_inv {r : Reader} {c : Char} {r1 : Reader}
    (h : r.readRune = (some c, r1)) :
    r.input[r.pos]? = some c ∧ r1 = ⟨r.input, r.pos + 1⟩ := by
  unfold Reader.readRune at h
  rcases hg : r.input[r.pos]? with _ | c2
  · rw [hg] at h
    cases h
  · rw [hg] at h
    obtain ⟨h1, h2⟩ := Prod.mk.injEq .. ▸ h
    cases h1
    exact ⟨rfl, h2.symm⟩

theorem take_one_of_getElem {l : List Char} {p : Nat} {c : Char}
    (h : l[p]? = some c) : (l.drop p).take 1 = [c] := by
  have hh : (l.drop p).head? = some c := by rw [List.head?_drop]; exact h
  rcases hd : l.drop p with _ | ⟨x, xs⟩
  · rw [hd] at hh; cases hh
  · rw [hd] at hh
    rw [List.head?_cons] at hh
    cases hh
    rfl

theorem litLoop_ok_inv (text : String) : ∀ (rs : List Char) (st : Nat)
    (r : Reader) (m : Match) (r1 : Reader),
    litLoop text rs st r = (.ok m, r1) →
    m = .scalar text ∧ r1.input = r.input ∧ r1.pos = r.pos + rs.length ∧
      (r.input.drop r.pos).take rs.length = rs := by
  intro rs
  induction rs with
  | nil =>
    intro st r m r1 h
    simp only [litLoop, Prod.mk.injEq, RunRes.ok.injEq] at h
    refine ⟨h.1.symm, ?_, ?_, ?_⟩
    · rw [← h.2]
    · rw [← h.2]; rfl
    · simp
  | cons c rest ih =>
    intro st r m r1 h
    rcases hrr : r.readRune with ⟨oc, rA⟩
    cases oc with
    | none => simp [litLoop, hrr] at h
    | some c1 =>
      by_cases hc : c1 = c
      · subst hc
        simp only [litLoop, hrr] at h
        rw [if_true] at h
        obtain ⟨hinv, hrA⟩ := readRune_some_inv hrr
        obtain ⟨hm, hin, hpos, htake⟩ := ih st rA m r1 h
        subst hrA
        dsimp only at hin hpos htake
        have hdrop : r.input.drop r.pos = c1 :: r.input.drop (r.pos + 1) := by
          have hh : (r.input.drop r.pos).head? = some c1 := by
            rw [List.head?_drop]
            exact hinv
          rcases hd : r.input.drop r.pos with _ | ⟨x, xs⟩
          · rw [hd] at hh; cases hh
          · rw [hd] at hh
            rw [List.head?_cons] at hh
            cases hh
            have hxs : xs = r.input.drop (r.pos + 1) := (drop_succ_of_drop hd).symm
            rw [hxs]
        refine ⟨hm, hin, ?_, ?_⟩
        · simp only [List.length_cons]
          omega
        · rw [List.length_cons, hdrop, List.take_succ_cons, htake]
      · simp [litLoop, hrr, if_neg hc] at h

theorem StringM_nil_data : (StringM (.seq [])).data = [] := by
  simp only [StringM]

theorem StringM_null_data : (StringM Match.null).data = [] := by
  simp only [StringM]

theorem StringM_seq_singleton (m : Match) : StringM (.seq [m]) = StringM m := by
  rw [StringM_seq_cons]
  have h0 : StringM (.seq []) = "" := by simp only [StringM]
  rw [h0]
  simp

/-- For a grammar built without `Tag`, `Node` and `Ignore`, a
successful run consumes the characters between the entry and exit
positions, and flattening the returned match gives back exactly that
text. -/
theorem flatten_consumed (g0 : Grammar) (r0 : Reader) :
    PlainG g0 → ∀ m r1, run g0 r0 = (.ok m, r1) →
      r0.pos ≤ r1.pos ∧
      (StringM m).data = (r0.input.drop r0.pos).take (r1.pos - r0.pos) := by
  apply run.induct
    (fun g r => PlainG g → ∀ m r1, run g r = (.ok m, r1) →
      r.pos ≤ r1.pos ∧
      (StringM m).data = (r.input.drop r.pos).take (r1.pos - r.pos))
    (fun g n cap st i acc r => PlainG g → ∀ mm r1,
      multLoop g n cap st i acc r = (.ok mm, r1) →
      r.pos ≤ r1.pos ∧
      (StringM mm).data =
        (StringM (.seq acc)).data ++ (r.input.drop r.pos).take (r1.pos - r.pos))
    (fun st gs errs r => r.pos = st → (∀ g ∈ gs, PlainG g) → ∀ m r1,
      orLoop st gs errs r = (.ok m, r1) →
      r.pos ≤ r1.pos ∧
      (StringM m).data = (r.input.drop r.pos).take (r1.pos - r.pos))
    (fun st gs acc r => (∀ g ∈ gs, PlainG g) → ∀ mm r1,
      andLoop st gs acc r = (.ok mm, r1) →
      r.pos ≤ r1.pos ∧
      (StringM mm).data =
        (StringM (.seq acc)).data ++ (r.input.drop r.pos).take (r1.pos - r.pos))
  -- node cases: excluded by PlainG
  next =>
    intro g f r m r1 hg m2 hf ih hPlain
    cases hPlain
  next =>
    intro g f r m r1 hg e hf ih hPlain
    cases hPlain
  next =>
    intro g f r e r1 hg ih hPlain
    cases hPlain
  next =>
    intro g f r r1 hg ih hPlain
    cases hPlain
  -- set: read failure (no success)
  next =>
    intro regset s r r1 hr hPlain m2 r2 hrun
    simp [run, hr] at hrun
  -- set: nil regexp panics (no success)
  next =>
    intro s r c1 r1 hr hPlain m2 r2 hrun
    simp [run, hr] at hrun
  -- set: class hit consumes one character
  next =>
    intro s r c1 r1 hr cls hcls hPlain m2 r2 hrun
    obtain ⟨hinv, hrA⟩ := readRune_some_inv hr
    simp only [run, hr] at hrun
    rw [if_pos hcls] at hrun
    simp only [Prod.mk.injEq, RunRes.ok.injEq] at hrun
    obtain ⟨hm, hr2⟩ := hrun
    subst hrA
    rw [← hm, ← hr2]
    refine ⟨?_, ?_⟩
    · show r.pos ≤ r.pos + 1
      omega
    show (StringM (.scalar (String.singleton c1))).data =
      (r.input.drop r.pos).take (r.pos + 1 - r.pos)
    have h1 : r.pos + 1 - r.pos = 1 := by omega
    rw [h1, take_one_of_getElem hinv]
    simp only [StringM]
    rfl
  -- set: class miss (no success)
  next =>
    intro s r c1 r1 hr cls hcls hPlain m2 r2 hrun
    simp [run, hr, if_neg hcls] at hrun
  -- lit consumes exactly its text
  next =>
    intro text r hPlain m2 r2 hrun
    simp only [run] at hrun
    obtain ⟨hm, hin, hpos, htake⟩ := litLoop_ok_inv text text.data r.pos r m2 r2 hrun
    subst hm
    refine ⟨by omega, ?_⟩
    have hl : r2.pos - r.pos = text.data.length := by omega
    simp only [StringM]
    rw [hl, htake]
  -- and_
  next =>
    intro gs r ih hPlain m2 r2 hrun
    simp only [run] at hrun
    cases hPlain with
    | and_ hall =>
      obtain ⟨h1, h2⟩ := ih hall m2 r2 hrun
      rw [StringM_nil_data, List.nil_append] at h2
      exact ⟨h1, h2⟩
  -- or_
  next =>
    intro gs r ih hPlain m2 r2 hrun
    simp only [run] at hrun
    cases hPlain with
    | or_ hall => exact ih rfl hall m2 r2 hrun
  -- mult
  next =>
    intro n m g r ih hPlain m2 r2 hrun
    simp only [run] at hrun
    cases hPlain with
    | mult hp =>
      obtain ⟨h1, h2⟩ := ih hp m2 r2 hrun
      rw [StringM_nil_data, List.nil_append] at h2
      exact ⟨h1, h2⟩
  -- ignore cases: excluded by PlainG
  next =>
    intro g r m r1 hg ih hPlain
    cases hPlain
  next =>
    intro g r e r1 hg ih hPlain
    cases hPlain
  next =>
    intro g r r1 hg ih hPlain
    cases hPlain
  -- require: success passes the And result through
  next =>
    intro gs r m r1 ha ih hPlain m2 r2 hrun
    cases hPlain with
    | require hall =>
      simp only [run, ha] at hrun
      simp only [Prod.mk.injEq, RunRes.ok.injEq] at hrun
      obtain ⟨hm, hr⟩ := hrun
      obtain ⟨h1, h2⟩ := ih hall m r1 ha
      rw [← hm, ← hr]
      rw [StringM_nil_data, List.nil_append] at h2
      exact ⟨h1, h2⟩
  next =>
    intro gs r e r1 ha ih hPlain m2 r2 hrun
    simp [run, ha] at hrun
  next =>
    intro gs r r1 ha ih hPlain m2 r2 hrun
    simp [run, ha] at hrun
  -- tag cases: excluded by PlainG
  next =>
    intro t g r m r1 hg ih hPlain
    cases hPlain
  next =>
    intro t g r e r1 hg ih hPlain
    cases hPlain
  next =>
    intro t g r r1 hg ih hPlain
    cases hPlain
  -- multLoop: child ok
  next =>
    intro g n cap st i acc r hlt m r1 hg ihRun ihLoop hPlain mm r2 hrun
    rw [multLoop.eq_def, dif_pos hlt] at hrun
    simp only [hg] at hrun
    obtain ⟨hp1, hs1⟩ := ihRun hPlain m r1 hg
    obtain ⟨hp2, hs2⟩ := ihLoop hPlain mm r2 hrun
    have hin : r1.input = r.input := by
      have hi := run_input g r
      rw [hg] at hi
      exact hi
    refine ⟨hp1.trans hp2, ?_⟩
    rw [hs2, StringM_seq_append, StringM_seq_singleton, String.data_append,
      hs1, hin, List.append_assoc,
      ← consumed_trans r.input r.pos r1.pos r2.pos hp1 hp2]
  -- multLoop: child fatal error (no success)
  next =>
    intro g n cap st i acc r hlt e r1 hg hfe ihRun hPlain mm r2 hrun
    rw [multLoop.eq_def, dif_pos hlt] at hrun
    simp [hg, hfe] at hrun
  -- multLoop: child recoverable error below the minimum (no success)
  next =>
    intro g n cap st i acc r hlt e r1 hg hfe hin ihRun hPlain mm r2 hrun
    rw [multLoop.eq_def, dif_pos hlt] at hrun
    simp [hg, hfe, hin] at hrun
  -- multLoop: child recoverable error at or past the minimum: repetition ends
  next =>
    intro g n cap st i acc r hlt e r1 hg hfe hin ihRun hPlain mm r2 hrun
    rw [multLoop.eq_def, dif_pos hlt] at hrun
    simp only [hg, if_neg hfe, if_neg hin] at hrun
    simp only [Prod.mk.injEq, RunRes.ok.injEq] at hrun
    obtain ⟨hm, hr⟩ := hrun
    have hfb : e.isFatal = false := Bool.of_not_eq_true hfe
    have hrest := recoverRestores g r (plainG_goodNodes hPlain) e r1 hg hfb
    rw [← hm, ← hr]
    refine ⟨by omega, ?_⟩
    have hz : r1.pos - r.pos = 0 := by omega
    rw [hz]
    simp
  -- multLoop: child panic (no success)
  next =>
    intro g n cap st i acc r hlt r1 hg ihRun hPlain mm r2 hrun
    rw [multLoop.eq_def, dif_pos hlt] at hrun
    simp [hg] at hrun
  -- multLoop: cap reached
  next =>
    intro g n cap st i acc r hlt hPlain mm r2 hrun
    rw [multLoop.eq_def, dif_neg hlt] at hrun
    simp only [Prod.mk.injEq, RunRes.ok.injEq] at hrun
    obtain ⟨hm, hr⟩ := hrun
    rw [← hm, ← hr]
    refine ⟨le_refl _, ?_⟩
    simp
  -- orLoop: exhausted (no success)
  next =>
    intro st errs r hpos hall m2 r2 hrun
    simp [orLoop] at hrun
  -- orLoop: child ok
  next =>
    intro st errs r g rest m r1 hg ihRun hpos hall m2 r2 hrun
    simp only [orLoop, hg] at hrun
    simp only [Prod.mk.injEq, RunRes.ok.injEq] at hrun
    obtain ⟨hm, hr⟩ := hrun
    rw [← hm, ← hr]
    exact ihRun (hall g (List.mem_cons_self g rest)) m r1 hg
  -- orLoop: child fatal (no success)
  next =>
    intro st errs r g rest e r1 hg hfe ihRun hpos hall m2 r2 hrun
    simp [orLoop, hg, hfe] at hrun
  -- orLoop: child recoverable, restore and continue
  next =>
    intro st errs r g rest e r1 hg hfe ihRun ihLoop hpos hall m2 r2 hrun
    simp only [orLoop, hg, if_neg hfe] at hrun
    have hres : r1.restoreState st = r := by
      have hi := run_input g r
      rw [hg] at hi
      show (⟨r1.input, st⟩ : Reader) = r
      rw [hi, ← hpos]
    rw [hres] at hrun ihLoop
    exact ihLoop hpos (fun gg hgg => hall gg (List.mem_cons_of_mem g hgg)) m2 r2 hrun
  -- orLoop: child panic (no success)
  next =>
    intro st errs r g rest r1 hg ihRun hpos hall m2 r2 hrun
    simp [orLoop, hg] at hrun
  -- andLoop: done
  next =>
    intro st acc r hall mm r2 hrun
    simp only [andLoop, Prod.mk.injEq, RunRes.ok.injEq] at hrun
    obtain ⟨hm, hr⟩ := hrun
    rw [← hm, ← hr]
    refine ⟨le_refl _, ?_⟩
    simp
  -- andLoop: child ok
  next =>
    intro st acc r g rest m r1 hg ihRun ihLoop hall mm r2 hrun
    simp only [andLoop, hg] at hrun
    have hPg : PlainG g := hall g (List.mem_cons_self g rest)
    obtain ⟨hp1, hs1⟩ := ihRun hPg m r1 hg
    have hallr : ∀ gg ∈ rest, PlainG gg :=
      fun gg hgg => hall gg (List.mem_cons_of_mem g hgg)
    obtain ⟨hp2, hs2⟩ := ihLoop hallr mm r2 hrun
    have hin : r1.input = r.input := by
      have hi := run_input g r
      rw [hg] at hi
      exact hi
    refine ⟨hp1.trans hp2, ?_⟩
    rw [hs2]
    have hstep := consumed_trans r.input r.pos r1.pos r2.pos hp1 hp2
    cases m with
    | null =>
      rw [dif_pos (show Match.null.isNull = true from rfl)]
      rw [StringM_null_data] at hs1
      rw [hin, hstep, ← hs1, List.nil_append]
    | scalar s =>
      rw [dif_neg (by simp [Match.isNull])]
      rw [StringM_seq_append, StringM_seq_singleton, String.data_append,
        hs1, hin, List.append_assoc, ← hstep]
    | seq msx =>
      rw [dif_neg (by simp [Match.isNull])]
      rw [StringM_seq_append, StringM_seq_singleton, String.data_append,
        hs1, hin, List.append_assoc, ← hstep]
    | tagged tx mx =>
      rw [dif_neg (by simp [Match.isNull])]
      rw [StringM_seq_append, StringM_seq_singleton, String.data_append,
        hs1, hin, List.append_assoc, ← hstep]
  -- andLoop: child error (no success)
  next =>
    intro st acc r g rest e r1 hg ihRun hall mm r2 hrun
    simp [andLoop, hg] at hrun
  -- andLoop: child panic (no success)
  next =>
    intro st acc r g rest r1 hg ihRun hall mm r2 hrun
    simp [andLoop, hg] at hrun

/-! Forward characterizations of the `Lit` loop. -/

theorem litLoop_ok_fwd (text : String) : ∀ (rs : List Char) (st : Nat) (r : Reader),
    (r.input.drop r.pos).take rs.length = rs →
    litLoop text rs st r = (.ok (.scalar text), ⟨r.input, r.pos + rs.length⟩) := by
  intro rs
  induction rs with
  | nil =>
    intro st r htake
    simp only [litLoop, List.length_nil, Nat.add_zero]
  | cons c rest ih =>
    intro st r htake
    rcases hd : r.input.drop r.pos with _ | ⟨x, xs⟩
    · rw [hd] at htake
      simp at htake
    · rw [hd, List.length_cons, List.take_succ_cons] at htake
      obtain ⟨hx, hxs⟩ := List.cons.injEq .. ▸ htake
      subst hx
      have hread := readRune_some hd
      simp only [litLoop, hread]
      rw [if_true]
      have hxs2 : ((⟨r.input, r.pos + 1⟩ : Reader).input.drop
          (⟨r.input, r.pos + 1⟩ : Reader).pos).take rest.length = rest := by
        dsimp only
        rw [drop_succ_of_drop hd]
        exact hxs
      rw [ih st ⟨r.input, r.pos + 1⟩ hxs2]
      dsimp only
      rw [List.length_cons]
      have : r.pos + 1 + rest.length = r.pos + (rest.length + 1) := by omega
      rw [this]

theorem litLoop_mismatch (text : String) : ∀ (pre : List Char) (exp : Char)
    (rest : List Char) (c : Char) (st : Nat) (r : Reader),
    (r.input.drop r.pos).take pre.length = pre →
    r.input[r.pos + pre.length]? = some c → c ≠ exp →
    litLoop text (pre ++ exp :: rest) st r =
      (.err (.plain (litMsg exp c)), ⟨r.input, st⟩) := by
  intro pre
  induction pre with
  | nil =>
    intro exp rest c st r htake hget hne
    simp only [List.length_nil, Nat.add_zero] at hget
    have hh : (r.input.drop r.pos).head? = some c := by
      rw [List.head?_drop]; exact hget
    rcases hd : r.input.drop r.pos with _ | ⟨x, xs⟩
    · rw [hd] at hh; cases hh
    · rw [hd, List.head?_cons] at hh
      cases hh
      have hread := readRune_some hd
      simp only [List.nil_append, litLoop, hread]
      rw [if_neg hne]
      rfl
  | cons p ps ih =>
    intro exp rest c st r htake hget hne
    rcases hd : r.input.drop r.pos with _ | ⟨x, xs⟩
    · rw [hd] at htake
      simp at htake
    · rw [hd, List.length_cons, List.take_succ_cons] at htake
      obtain ⟨hx, hxs⟩ := List.cons.injEq .. ▸ htake
      subst hx
      have hread := readRune_some hd
      simp only [List.cons_append, litLoop, hread]
      rw [if_true]
      have hxs2 : ((⟨r.input, r.pos + 1⟩ : Reader).input.drop
          (⟨r.input, r.pos + 1⟩ : Reader).pos).take ps.length = ps := by
        dsimp only
        rw [drop_succ_of_drop hd]
        exact hxs
      have hget2 : (⟨r.input, r.pos + 1⟩ : Reader).input[(⟨r.input, r.pos + 1⟩ : Reader).pos + ps.length]? = some c := by
        dsimp only
        rw [List.length_cons] at hget
        have : r.pos + 1 + ps.length = r.pos + (ps.length + 1) := by omega
        rw [this]
        exact hget
      exact ih exp rest c st ⟨r.input, r.pos + 1⟩ hxs2 hget2 hne

theorem litLoop_eof (text : String) : ∀ (pre : List Char) (exp : Char)
    (rest : List Char) (st : Nat) (r : Reader),
    (r.input.drop r.pos).take pre.length = pre →
    r.input[r.pos + pre.length]? = none →
    litLoop text (pre ++ exp :: rest) st r = (.err eofErr, ⟨r.input, st⟩) := by
  intro pre
  induction pre with
  | nil =>
    intro exp rest st r htake hget
    simp only [List.length_nil, Nat.add_zero] at hget
    have hread : r.readRune = (none, r) := by
      unfold Reader.readRune
      rw [hget]
    simp only [List.nil_append, litLoop, hread]
    rfl
  | cons p ps ih =>
    intro exp rest st r htake hget
    rcases hd : r.input.drop r.pos with _ | ⟨x, xs⟩
    · rw [hd] at htake
      simp at htake
    · rw [hd, List.length_cons, List.take_succ_cons] at htake
      obtain ⟨hx, hxs⟩ := List.cons.injEq .. ▸ htake
      subst hx
      have hread := readRune_some hd
      simp only [List.cons_append, litLoop, hread]
      rw [if_true]
      have hxs2 : ((⟨r.input, r.pos + 1⟩ : Reader).input.drop
          (⟨r.input, r.pos + 1⟩ : Reader).pos).take ps.length = ps := by
        dsimp only
        rw [drop_succ_of_drop hd]
        exact hxs
      have hget2 : (⟨r.input, r.pos + 1⟩ : Reader).input[(⟨r.input, r.pos + 1⟩ : Reader).pos + ps.length]? = none := by
        dsimp only
        rw [List.length_cons] at hget
        have : r.pos + 1 + ps.length = r.pos + (ps.length + 1) := by omega
        rw [this]
        exact hget
      exact ih exp rest st ⟨r.input, r.pos + 1⟩ hxs2 hget2

/-! # The claims -/

/-- C1, counterexample: `String` (Flatten) does not recurse into
`TaggedMatch` wrappers — a `TaggedMatch` falls through the type switch
to the default `""`.  On the successful match of `Tag("x", Lit("a"))`
over `"a"` (consumed text `"a"`), Flatten returns `""`, not `"a"` as
the claim's reading (formalized by `flattenSpec`) demands. -/
theorem C1_flatten_tagged_cex :
    run (.tag "x" (.lit "a")) ⟨['a'], 0⟩ =
      (.ok (.tagged "x" (.scalar "a")), ⟨['a'], 1⟩) ∧
    StringM (.tagged "x" (.scalar "a")) = "" ∧
    flattenSpec (.tagged "x" (.scalar "a")) = "a" ∧
    ("" : String) ≠ "a" := by
  refine ⟨?_, ?_, ?_, ?_⟩
  · simp [run, litLoop, Reader.readRune, Reader.restoreState]
  · simp [StringM]
  · simp [flattenSpec]
  · decide

/-- C1, amended: Flatten (`StringM`) concatenates, left to right, the
Scalar values reachable without passing through a Tagged wrapper
(Tagged and nil contribute the empty string); consequently the
round-trip `Flatten(m) = t` with `t` the consumed text holds for every
grammar built without `Tag`, `Node` and `Ignore`. -/
theorem C1_flatten_roundtrip (g : Grammar) (r : Reader) (m : Match)
    (r1 : Reader) (hp : PlainG g) (h : run g r = (.ok m, r1)) :
    r1.input = r.input ∧ r.pos ≤ r1.pos ∧
    (StringM m).data = (r.input.drop r.pos).take (r1.pos - r.pos) := by
  have hi := run_input g r
  rw [h] at hi
  have hf := flatten_consumed g r hp m r1 h
  exact ⟨hi, hf⟩

/-- C1, witness: `And(Lit("ab"), Lit("c"))` over `"abcd"` consumes
`"abc"` and flattening its match gives exactly those three characters. -/
theorem C1_flatten_roundtrip_witness :
    run (.and_ [.lit "ab", .lit "c"]) ⟨"abcd".data, 0⟩ =
      (.ok (.seq [.scalar "ab", .scalar "c"]), ⟨"abcd".data, 3⟩) ∧
    ((⟨"abcd".data, 3⟩ : Reader).input = (⟨"abcd".data, 0⟩ : Reader).input ∧
     (⟨"abcd".data, 0⟩ : Reader).pos ≤ (⟨"abcd".data, 3⟩ : Reader).pos ∧
     (StringM (.seq [.scalar "ab", .scalar "c"])).data =
       ((⟨"abcd".data, 0⟩ : Reader).input.drop 0).take (3 - 0)) := by
  have hrun : run (.and_ [.lit "ab", .lit "c"]) ⟨"abcd".data, 0⟩ =
      (.ok (.seq [.scalar "ab", .scalar "c"]), ⟨"abcd".data, 3⟩) := by
    simp [run, andLoop, litLoop, Reader.readRune, Reader.restoreState, Match.isNull]
  have hp : PlainG (.and_ [.lit "ab", .lit "c"]) := by
    refine PlainG.and_ ?_
    intro gg hgg
    simp only [List.mem_cons, List.mem_singleton] at hgg
    rcases hgg with h1 | h1 | h1
    · rw [h1]; exact PlainG.lit
    · rw [h1]; exact PlainG.lit
    · cases h1
  exact ⟨hrun, C1_flatten_roundtrip _ _ _ _ hp hrun⟩

/-- C2, counterexample: `Node` takes no checkpoint; when its transform
fails with an ordinary (recoverable) error after the child consumed
input, the cursor stays after the consumed text — here at position 1,
not the entry position 0. -/
theorem C2_node_transform_cex :
    run (.node (.lit "a") (fun _ => .error (.plain "boom"))) ⟨['a'], 0⟩ =
      (.err (.plain "boom"), ⟨['a'], 1⟩) ∧
    (PError.plain "boom").isFatal = false ∧
    (1 : Nat) ≠ 0 := by
  refine ⟨?_, rfl, by decide⟩
  simp [run, litLoop, Reader.readRune, Reader.restoreState]

/-- C2, amended: for every grammar whose `Node` transforms fail only
fatally (in particular every grammar without `Node`), a recoverable
failure leaves the cursor position unchanged. -/
theorem C2_checkpoint_symmetry (g : Grammar) (r : Reader)
    (hGood : GoodNodes g) (e : PError) (r1 : Reader)
    (h : run g r = (.err e, r1)) (hfe : e.isFatal = false) :
    r1.pos = r.pos :=
  recoverRestores g r hGood e r1 h hfe

/-- C2, witness: `Lit("a")` over `"b"` fails recoverably and the
position is back at 0. -/
theorem C2_checkpoint_symmetry_witness :
    run (.lit "a") ⟨['b'], 0⟩ =
      (.err (.plain (litMsg 'a' 'b')), ⟨['b'], 0⟩) ∧
    (⟨['b'], 0⟩ : Reader).pos = (⟨['b'], 0⟩ : Reader).pos := by
  have hrun : run (.lit "a") ⟨['b'], 0⟩ =
      (.err (.plain (litMsg 'a' 'b')), ⟨['b'], 0⟩) := by
    simp [run, litLoop, Reader.readRune, Reader.restoreState]
  exact ⟨hrun, C2_checkpoint_symmetry _ _ GoodNodes.lit _ _ hrun rfl⟩

/-- C3, counterexample: `Mult` appends every child match with no nil
check (unlike `And`), so repetition over an `Ignore`d grammar returns a
sequence containing a nil placeholder. -/
theorem C3_mult_keeps_null_cex :
    run (.mult 1 1 (.ignore (.lit "a"))) ⟨['a'], 0⟩ =
      (.ok (.seq [Match.null]), ⟨['a'], 1⟩) ∧
    Match.null ∈ [Match.null] := by
  refine ⟨?_, List.mem_singleton_self _⟩
  simp [run, multLoop, litLoop, Reader.readRune, Reader.restoreState,
    PError.isFatal]

/-- C3, amended: every Sequence match built by `And` omits children
that produced no semantic value — no nil placeholder ever appears in an
`And` result; `Mult`, by contrast, appends every match, nil included
(see the counterexample). -/
theorem C3_and_omits_null (gs : List Grammar) (r : Reader) (mm : Match)
    (r1 : Reader) (h : run (.and_ gs) r = (.ok mm, r1)) :
    ∃ ms, mm = .seq ms ∧ ∀ x ∈ ms, x.isNull = false := by
  simp only [run] at h
  exact andLoop_ok_noNull gs r.pos [] r mm r1 (by intro x hx; cases hx) h

/-- C3, witness: the spec's own example — `And(Lit("a"),
Ignore(Lit("b")), Lit("c"))` against `"abc"` yields a two-element
sequence with no placeholder. -/
theorem C3_and_omits_null_witness :
    run (.and_ [.lit "a", .ignore (.lit "b"), .lit "c"]) ⟨"abc".data, 0⟩ =
      (.ok (.seq [.scalar "a", .scalar "c"]), ⟨"abc".data, 3⟩) ∧
    (∃ ms, (Match.seq [.scalar "a", .scalar "c"]) = .seq ms ∧
      ∀ x ∈ ms, x.isNull = false) := by
  have hrun : run (.and_ [.lit "a", .ignore (.lit "b"), .lit "c"]) ⟨"abc".data, 0⟩ =
      (.ok (.seq [.scalar "a", .scalar "c"]), ⟨"abc".data, 3⟩) := by
    simp [run, andLoop, litLoop, Reader.readRune, Reader.restoreState, Match.isNull]
  exact ⟨hrun, C3_and_omits_null _ _ _ _ hrun⟩

/-- C4: the code, evaluated at the failing input.  `Set` discards the
`regexp.Compile` error; for a set string whose class fails to compile
(such as `"\\"`, giving the malformed pattern `[\]`) the stored matcher
is the nil `*Regexp` (modelled `none`), and invoking the grammar on a
cursor with a readable character dereferences it: a panic, not a
surfaced construction error nor an ordinary parse failure. -/
theorem C4_set_nil_regexp_panics :
    run (Set "\\" none) ⟨['x'], 0⟩ = (.panic, ⟨['x'], 1⟩) := by
  simp [Set, Escaper, run, Reader.readRune]

/-- C5: `And` is atomic — however many components already succeeded, a
failing component (recoverable or fatal alike) makes the whole `And`
return that same error with the cursor restored to the entry
checkpoint, and no partial match. -/
theorem C5_and_atomicity (pre : List Grammar) (g : Grammar)
    (post : List Grammar) (r r1 rX : Reader) (e : PError)
    (hpre : SeqOk pre r r1) (hg : run g r1 = (.err e, rX)) :
    run (.and_ (pre ++ g :: post)) r = (.err e, r) := by
  obtain ⟨acc2, hacc⟩ := andLoop_seqOk hpre (g :: post) r.pos []
  have hin : rX.input = r.input := by
    have hi := run_input g r1
    rw [hg] at hi
    exact hi.trans (seqOk_input hpre)
  simp only [run, hacc, andLoop, hg]
  show (RunRes.err e, (⟨rX.input, r.pos⟩ : Reader)) = (RunRes.err e, r)
  rw [hin]

/-- C5, witness: `And(Lit("a"), Lit("b"))` over `"ax"`: the first
component succeeds, the second fails, and the whole sequence fails with
that error at position 0. -/
theorem C5_and_atomicity_witness :
    run (.and_ [.lit "a", .lit "b"]) ⟨"ax".data, 0⟩ =
      (.err (.plain (litMsg 'b' 'x')), ⟨"ax".data, 0⟩) := by
  have h1 : run (.lit "a") ⟨"ax".data, 0⟩ =
      (.ok (.scalar "a"), ⟨"ax".data, 1⟩) := by
    simp [run, litLoop, Reader.readRune, Reader.restoreState]
  have h2 : run (.lit "b") ⟨"ax".data, 1⟩ =
      (.err (.plain (litMsg 'b' 'x')), ⟨"ax".data, 1⟩) := by
    simp [run, litLoop, Reader.readRune, Reader.restoreState]
  exact C5_and_atomicity [.lit "a"] (.lit "b") [] _ _ _ _
    (SeqOk.cons h1 SeqOk.nil) h2

/-- C6: `Or` tries its alternatives in order from the entry
checkpoint: after any row of recoverable failures, (a) the first
success is returned as-is, (b) a fatal failure is returned immediately
without trying later alternatives, and (c) if every alternative fails
recoverably, `Or` fails recoverably with the composite message listing
the collected failures in order. -/
theorem C6_or_alternation :
    (∀ (pre : List Grammar) (g : Grammar) (post : List Grammar) (r : Reader)
       (es : List PError) (m : Match) (r1 : Reader),
       OrFails pre r es → run g r = (.ok m, r1) →
       run (.or_ (pre ++ g :: post)) r = (.ok m, r1)) ∧
    (∀ (pre : List Grammar) (g : Grammar) (post : List Grammar) (r : Reader)
       (es : List PError) (e : PError) (r1 : Reader),
       OrFails pre r es → run g r = (.err e, r1) → e.isFatal = true →
       run (.or_ (pre ++ g :: post)) r = (.err e, r1)) ∧
    (∀ (gs : List Grammar) (r : Reader) (es : List PError),
       OrFails gs r es →
       run (.or_ gs) r = (.err (.plain (orMsg es)), r)) := by
  refine ⟨?_, ?_, ?_⟩
  · intro pre g post r es m r1 hf hg
    simp only [run]
    rw [orLoop_orFails hf (g :: post) []]
    simp only [orLoop, hg]
  · intro pre g post r es e r1 hf hg hfe
    simp only [run]
    rw [orLoop_orFails hf (g :: post) []]
    simp only [orLoop, hg, hfe]
    rw [if_true]
  · intro gs r es hf
    simp only [run]
    have h := orLoop_orFails hf [] []
    rw [List.append_nil] at h
    rw [h]
    simp only [orLoop, List.nil_append]

/-- C6, witness: over `"b"` — `Or(Lit("a"), Lit("b"), Lit("c"))`
returns the second alternative's match; `Or(Require(Lit("a")),
Lit("b"))` aborts fatally without trying `Lit("b")`; `Or(Lit("a"))`
exhausts and fails with the composite message. -/
theorem C6_or_alternation_witness :
    run (.or_ [.lit "a", .lit "b", .lit "c"]) ⟨"b".data, 0⟩ =
      (.ok (.scalar "b"), ⟨"b".data, 1⟩) ∧
    run (.or_ [.require [.lit "a"], .lit "b"]) ⟨"b".data, 0⟩ =
      (.err (.fatal (.plain (litMsg 'a' 'b'))), ⟨"b".data, 0⟩) ∧
    run (.or_ [.lit "a"]) ⟨"b".data, 0⟩ =
      (.err (.plain (orMsg [.plain (litMsg 'a' 'b')])), ⟨"b".data, 0⟩) := by
  have ha : run (.lit "a") ⟨"b".data, 0⟩ =
      (.err (.plain (litMsg 'a' 'b')), ⟨"b".data, 0⟩) := by
    simp [run, litLoop, Reader.readRune, Reader.restoreState]
  have hb : run (.lit "b") ⟨"b".data, 0⟩ =
      (.ok (.scalar "b"), ⟨"b".data, 1⟩) := by
    simp [run, litLoop, Reader.readRune, Reader.restoreState]
  have hreq : run (.require [.lit "a"]) ⟨"b".data, 0⟩ =
      (.err (.fatal (.plain (litMsg 'a' 'b'))), ⟨"b".data, 0⟩) := by
    simp [run, andLoop, litLoop, Reader.readRune, Reader.restoreState]
  refine ⟨?_, ?_, ?_⟩
  · exact C6_or_alternation.1 [.lit "a"] (.lit "b") [.lit "c"] _ _ _ _
      (OrFails.cons ha rfl OrFails.nil) hb
  · exact C6_or_alternation.2.1 [] (.require [.lit "a"]) [.lit "b"] _ [] _ _
      OrFails.nil hreq rfl
  · exact C6_or_alternation.2.2 [.lit "a"] _ _
      (OrFails.cons ha rfl OrFails.nil)

/-- C7: `Mult(min, max, g)` (`max = 0` meaning unbounded, as the
substituted `maxInt` cap) applied to a reader on which `g` succeeds `k`
times and then fails recoverably (restoring itself): with at least
`min` successes the repetition succeeds with the accumulated matches
and the cursor after the last success; with fewer it fails recoverably
with the cursor restored to the entry checkpoint. -/
theorem C7_mult_repetition (g : Grammar) (n m : Nat) (r : Reader) (k : Nat)
    (ms : List Match) (r2 : Reader) (e : PError)
    (hrep : RepRun g r k ms r2 e)
    (hcap : k < (if m = 0 then maxInt else m)) :
    (n ≤ k → run (.mult n m g) r = (.ok (.seq ms), r2)) ∧
    (k < n → run (.mult n m g) r = (.err e, r)) := by
  obtain ⟨hA, hB⟩ :=
    @multLoop_repRun g n (if m = 0 then maxInt else m) r k ms r2 e hrep
      0 [] r.pos (by simpa using hcap)
  constructor
  · intro hn
    simp only [run]
    rw [hA (by simpa using hn)]
    simp
  · intro hn
    simp only [run]
    rw [hB (by simpa using hn)]
    have hin := repRun_input hrep
    show (RunRes.err e, (⟨r2.input, r.pos⟩ : Reader)) = (RunRes.err e, r)
    rw [hin]

/-- C7, witness: `Mult(2,4,Lit("a"))` over `"aaab"` succeeds with 3
matches leaving the cursor after them; over `"ab"` (only one
application possible) it fails recoverably and restores fully;
`Mult(0,unbounded,Lit("a"))` over `"b"` succeeds with the empty
sequence. -/
theorem C7_mult_repetition_witness :
    run (.mult 2 4 (.lit "a")) ⟨"aaab".data, 0⟩ =
      (.ok (.seq [.scalar "a", .scalar "a", .scalar "a"]), ⟨"aaab".data, 3⟩) ∧
    run (.mult 2 4 (.lit "a")) ⟨"ab".data, 0⟩ =
      (.err (.plain (litMsg 'a' 'b')), ⟨"ab".data, 0⟩) ∧
    run (.mult 0 0 (.lit "a")) ⟨"b".data, 0⟩ =
      (.ok (.seq []), ⟨"b".data, 0⟩) := by
  have h0 : run (.lit "a") ⟨"aaab".data, 0⟩ =
      (.ok (.scalar "a"), ⟨"aaab".data, 1⟩) := by
    simp [run, litLoop, Reader.readRune, Reader.restoreState]
  have h1 : run (.lit "a") ⟨"aaab".data, 1⟩ =
      (.ok (.scalar "a"), ⟨"aaab".data, 2⟩) := by
    simp [run, litLoop, Reader.readRune, Reader.restoreState]
  have h2 : run (.lit "a") ⟨"aaab".data, 2⟩ =
      (.ok (.scalar "a"), ⟨"aaab".data, 3⟩) := by
    simp [run, litLoop, Reader.readRune, Reader.restoreState]
  have h3 : run (.lit "a") ⟨"aaab".data, 3⟩ =
      (.err (.plain (litMsg 'a' 'b')), ⟨"aaab".data, 3⟩) := by
    simp [run, litLoop, Reader.readRune, Reader.restoreState]
  have hx0 : run (.lit "a") ⟨"ab".data, 0⟩ =
      (.ok (.scalar "a"), ⟨"ab".data, 1⟩) := by
    simp [run, litLoop, Reader.readRune, Reader.restoreState]
  have hx1 : run (.lit "a") ⟨"ab".data, 1⟩ =
      (.err (.plain (litMsg 'a' 'b')), ⟨"ab".data, 1⟩) := by
    simp [run, litLoop, Reader.readRune, Reader.restoreState]
  have hy0 : run (.lit "a") ⟨"b".data, 0⟩ =
      (.err (.plain (litMsg 'a' 'b')), ⟨"b".data, 0⟩) := by
    simp [run, litLoop, Reader.readRune, Reader.restoreState]
  refine ⟨?_, ?_, ?_⟩
  · exact (C7_mult_repetition (.lit "a") 2 4 _ 3 _ _ _
      (RepRun.step h0 (RepRun.step h1 (RepRun.step h2 (RepRun.done h3 rfl))))
      (by decide)).1 (by decide)
  · exact (C7_mult_repetition (.lit "a") 2 4 _ 1 _ _ _
      (RepRun.step hx0 (RepRun.done hx1 rfl)) (by decide)).2 (by decide)
  · exact (C7_mult_repetition (.lit "a") 0 0 _ 0 _ _ _
      (RepRun.done hy0 rfl) (by decide)).1 (by decide)

/-- C8, counterexample: on a read failure `Lit` does not produce a
message naming the expected and actual character — it propagates the
cursor's own read error (`io.EOF`, message `"EOF"`), which does not
even mention the expected character. -/
theorem C8_lit_eof_msg_cex :
    run (.lit "a") ⟨[], 0⟩ = (.err (.plain "EOF"), ⟨[], 0⟩) ∧
    ¬ ('a' ∈ "EOF".data) := by
  constructor
  · simp [run, litLoop, Reader.readRune, Reader.restoreState, eofErr]
  · decide

/-- C8, amended: `Lit(text)` reads one character per expected
character; when the input continues with `text` it succeeds with the
Scalar `text` having consumed exactly `len(text)` characters; on the
first mismatching character it restores the entry checkpoint and fails
recoverably with the message naming the expected and actual character;
on a read failure it restores and propagates the read error itself
(`io.EOF`). -/
theorem C8_lit_exactness (text : String) (r : Reader) :
    ((r.input.drop r.pos).take text.data.length = text.data →
      run (.lit text) r =
        (.ok (.scalar text), ⟨r.input, r.pos + text.data.length⟩)) ∧
    (∀ (pre : List Char) (exp c : Char) (rest : List Char),
      text.data = pre ++ exp :: rest →
      (r.input.drop r.pos).take pre.length = pre →
      r.input[r.pos + pre.length]? = some c → c ≠ exp →
      run (.lit text) r = (.err (.plain (litMsg exp c)), r)) ∧
    (∀ (pre : List Char) (exp : Char) (rest : List Char),
      text.data = pre ++ exp :: rest →
      (r.input.drop r.pos).take pre.length = pre →
      r.input[r.pos + pre.length]? = none →
      run (.lit text) r = (.err eofErr, r)) := by
  refine ⟨?_, ?_, ?_⟩
  · intro h
    simp only [run]
    exact litLoop_ok_fwd text text.data r.pos r h
  · intro pre exp c rest hsplit htake hget hne
    simp only [run]
    rw [hsplit, litLoop_mismatch text pre exp rest c r.pos r htake hget hne]
  · intro pre exp rest hsplit htake hget
    simp only [run]
    rw [hsplit, litLoop_eof text pre exp rest r.pos r htake hget]

/-- C8, witness: `Lit("foo")` over `"foobar"` consumes exactly 3
characters; `Lit("ab")` over `"ax"` fails with the expected/actual
message, restored; `Lit("ab")` over `"a"` fails with the read error,
restored. -/
theorem C8_lit_exactness_witness :
    run (.lit "foo") ⟨"foobar".data, 0⟩ =
      (.ok (.scalar "foo"), ⟨"foobar".data, 3⟩) ∧
    run (.lit "ab") ⟨"ax".data, 0⟩ =
      (.err (.plain (litMsg 'b' 'x')), ⟨"ax".data, 0⟩) ∧
    run (.lit "ab") ⟨"a".data, 0⟩ = (.err eofErr, ⟨"a".data, 0⟩) := by
  refine ⟨?_, ?_, ?_⟩
  · have h := (C8_lit_exactness "foo" ⟨"foobar".data, 0⟩).1 (by decide)
    simpa using h
  · exact (C8_lit_exactness "ab" ⟨"ax".data, 0⟩).2.1 ['a'] 'b' 'x' []
      (by decide) (by decide) (by decide) (by decide)
  · exact (C8_lit_exactness "ab" ⟨"a".data, 0⟩).2.2 ['a'] 'b' []
      (by decide) (by decide) (by decide)

/-- C9, counterexample: inside a Sequence, `GetTag` skips a found tag
whose extracted child is nil and keeps searching — so it does not
return the (nil) child of the *first* Tagged sub-match with the label,
as the claim states, but a later one. -/
theorem C9_getTag_first_cex :
    GetTag (.seq [.tagged "x" Match.null, .tagged "x" (.scalar "a")]) "x" =
      .scalar "a" ∧
    ((taggedPre (.seq [.tagged "x" Match.null, .tagged "x" (.scalar "a")])).filter
        (fun p => p.1 == "x")).head? = some ("x", Match.null) ∧
    Match.null ≠ Match.scalar "a" := by
  refine ⟨?_, ?_, fun h => Match.noConfusion h⟩
  · simp [GetTag]
  · simp [taggedPre]

/-- C9, amended: `GetTag` performs a depth-first preorder search and
returns the child of the first Tagged sub-match whose label matches
and whose child is non-nil (a nil child found inside a Sequence is
treated as not-found and the search continues), or nil when none
exists; the `Tag`/`GetTag` round-trip on `Tag("x", Lit("a"))` over
`"a"` yields the Scalar `"a"`. -/
theorem C9_getTag_spec :
    (∀ (m : Match) (tag : String), GetTag m tag = findTagSpec m tag) ∧
    run (.tag "x" (.lit "a")) ⟨['a'], 0⟩ =
      (.ok (.tagged "x" (.scalar "a")), ⟨['a'], 1⟩) ∧
    GetTag (.tagged "x" (.scalar "a")) "x" = .scalar "a" := by
  refine ⟨getTag_eq_findTagSpec, ?_, ?_⟩
  · simp [run, litLoop, Reader.readRune, Reader.restoreState]
  · simp [GetTag]

/-- C10: on the fatal path the combinators differ — `Or` and `Mult`
return a child's fatal error with the cursor wherever the child left
it (no restore), while `And` restores its entry checkpoint on every
failure, fatal included. -/
theorem C10_fatal_cursor_asymmetry :
    (∀ (pre : List Grammar) (g : Grammar) (post : List Grammar) (r : Reader)
       (es : List PError) (e : PError) (r1 : Reader),
       OrFails pre r es → run g r = (.err e, r1) → e.isFatal = true →
       run (.or_ (pre ++ g :: post)) r = (.err e, r1)) ∧
    (∀ (g : Grammar) (k : Nat) (r r1 : Reader) (e : PError) (r2 : Reader)
       (n m : Nat),
       SeqOk (List.replicate k g) r r1 → run g r1 = (.err e, r2) →
       e.isFatal = true → k < (if m = 0 then maxInt else m) →
       run (.mult n m g) r = (.err e, r2)) ∧
    (∀ (pre : List Grammar) (g : Grammar) (post : List Grammar)
       (r r1 r2 : Reader) (e : PError),
       SeqOk pre r r1 → run g r1 = (.err e, r2) → e.isFatal = true →
       run (.and_ (pre ++ g :: post)) r = (.err e, r)) := by
  refine ⟨?_, ?_, ?_⟩
  · intro pre g post r es e r1 hf hg hfe
    simp only [run]
    rw [orLoop_orFails hf (g :: post) []]
    simp only [orLoop, hg, hfe]
    rw [if_true]
  · intro g k r r1 e r2 n m hseq hg hfe hcap
    simp only [run]
    exact multLoop_fatal hg hfe k r hseq n _ 0 [] r.pos (by simpa using hcap)
  · intro pre g post r r1 r2 e hseq hg hfe
    obtain ⟨acc2, hacc⟩ := andLoop_seqOk hseq (g :: post) r.pos []
    have hin : r2.input = r.input := by
      have hi := run_input g r1
      rw [hg] at hi
      exact hi.trans (seqOk_input hseq)
    simp only [run, hacc, andLoop, hg]
    show (RunRes.err e, (⟨r2.input, r.pos⟩ : Reader)) = (RunRes.err e, r)
    rw [hin]

/-- C10, witness: a `Node` grammar that consumes `"a"` and then fails
fatally leaves the cursor at 1; `Or` and `Mult` return the fatal error
with the cursor still at 1, while `And` returns it with the cursor
restored to 0. -/
theorem C10_fatal_cursor_asymmetry_witness :
    run (.or_ [.node (.lit "a") (fun _ => .error (.fatal (.plain "boom")))])
        ⟨"a".data, 0⟩ =
      (.err (.fatal (.plain "boom")), ⟨"a".data, 1⟩) ∧
    run (.mult 0 0 (.node (.lit "a") (fun _ => .error (.fatal (.plain "boom")))))
        ⟨"a".data, 0⟩ =
      (.err (.fatal (.plain "boom")), ⟨"a".data, 1⟩) ∧
    run (.and_ [.node (.lit "a") (fun _ => .error (.fatal (.plain "boom")))])
        ⟨"a".data, 0⟩ =
      (.err (.fatal (.plain "boom")), ⟨"a".data, 0⟩) := by
  have hgf : run (.node (.lit "a") (fun _ => .error (.fatal (.plain "boom"))))
      ⟨"a".data, 0⟩ = (.err (.fatal (.plain "boom")), ⟨"a".data, 1⟩) := by
    simp [run, litLoop, Reader.readRune, Reader.restoreState]
  refine ⟨?_, ?_, ?_⟩
  · exact C10_fatal_cursor_asymmetry.1 [] _ [] _ [] _ _ OrFails.nil hgf rfl
  · exact C10_fatal_cursor_asymmetry.2.1 _ 0 _ _ _ _ 0 0 SeqOk.nil hgf rfl
      (by decide)
  · exact C10_fatal_cursor_asymmetry.2.2 [] _ [] _ _ _ _ SeqOk.nil hgf rfl

end StateParser
